import Mathlib

/-!
# WCS1700 current sensor wrapper (`wcs1700_current.h`)

A shallow embedding of the class `WCS1700Current`.

* The collaborators of the class (the two-wire bus `Wire` and the ADC driver
  `Adafruit_ADS1115`) are library code outside the header.  They are taken as a
  parameter: a record of total functions over an arbitrary state type `σ`, which
  stands for everything behind the driver object (driver fields, bus, chip).
  Every theorem that does not say otherwise holds for every such record.
* `float` is read in two ways.  The functions of `WCS1700Current` read it as exact
  rational arithmetic (`ℚ`, no rounding, infinities or NaN); they carry the results on
  structure: which calls are made, what is passed through, what a read leaves unchanged.
  The functions of `WCS1700Current.Binary32` read it as binary32: every operation is
  computed exactly and rounded once, to nearest with ties to even, with signed zeros,
  infinities and NaN; they carry the results on the values `readCurrent()` returns.
* `uint8_t` is a `Nat` reduced modulo `256` where the value enters the object,
  `int16_t` is an `Int` (the header never does arithmetic on it).
* The object carries one ghost field, `calls`: the collaborator calls it has issued,
  oldest first.  No function of the header reads it.
-/

/-- Collaborator calls made by the header, in the order they are issued.  The type `γ`
is the driver's gain enumeration (`adsGain_t`). -/
inductive Call (γ : Type) where
  | Wire_begin : Call γ
  | ads_begin : Call γ
  | ads_setGain (gain : γ) : Call γ
  | ads_readADC_SingleEnded (channel : Nat) : Call γ
  | ads_computeVolts (counts : Int) : Call γ

/-- Recogniser of the driver start-up call `ads.begin()`. -/
def Call.isAdsBegin {γ : Type} : Call γ → Bool
  | Call.ads_begin => true
  | _ => false

/-- Recogniser of a gain configuration call `ads.setGain(..)`. -/
def Call.isSetGain {γ : Type} : Call γ → Bool
  | Call.ads_setGain _ => true
  | _ => false

/-- The library operations the header calls, over a collaborator state `σ`:
`Wire.begin()` (its result is ignored by the header), `ads.begin()`,
`ads.setGain(g)`, `ads.readADC_SingleEnded(ch)`, `ads.computeVolts(counts)`, and the
library constant `GAIN_ONE`.  Each operation may change the collaborator state. -/
structure Collaborators (σ γ : Type) where
  Wire_begin : σ → σ
  ads_begin : σ → Bool × σ
  ads_setGain : γ → σ → σ
  ads_readADC_SingleEnded : Nat → σ → Int × σ
  ads_computeVolts : Int → σ → ℚ × σ
  GAIN_ONE : γ

/-- The class `WCS1700Current`: the member `ads` (with what lies behind it), the member
`channel`, and the ghost list of collaborator calls issued so far. -/
structure WCS1700Current (σ γ : Type) where
  ads : σ
  channel : Nat
  calls : List (Call γ)

namespace WCS1700Current

variable {σ γ : Type}

/-- Constant `SENSITIVITY = 0.066`. -/
def SENSITIVITY : ℚ := 0.066

/-- Constant `ZERO_CURRENT_VOLTAGE = 0`. -/
def ZERO_CURRENT_VOLTAGE : ℚ := 0

/-- Constant `MAX_CURRENT = 75.0`. -/
def MAX_CURRENT : ℚ := 75.0

/-- Constant `CALIBRATION_FACTOR = 1.0`. -/
def CALIBRATION_FACTOR : ℚ := 1.0

/-- Constructor `WCS1700Current(uint8_t adcChannel) : channel(adcChannel) {}`; the
member `ads` is default-constructed, here: given as `ads0`.  The parameter has type
`uint8_t`, hence the reduction modulo `256`. -/
def construct (ads0 : σ) (adcChannel : Nat) : WCS1700Current σ γ :=
  ⟨ads0, adcChannel % 256, []⟩

/-- Method `begin()`: `Wire.begin(); if (!ads.begin()) return false;
ads.setGain(GAIN_ONE); return true;`. -/
def begin (hw : Collaborators σ γ) (self : WCS1700Current σ γ) :
    Bool × WCS1700Current σ γ :=
  let s0 := hw.Wire_begin self.ads
  let r := hw.ads_begin s0
  if !r.1 then
    (false, ⟨r.2, self.channel, self.calls ++ [Call.Wire_begin, Call.ads_begin]⟩)
  else
    (true, ⟨hw.ads_setGain hw.GAIN_ONE r.2, self.channel,
      self.calls ++ [Call.Wire_begin, Call.ads_begin, Call.ads_setGain hw.GAIN_ONE]⟩)

/-- Method `getAnalogValue()`: `return ads.readADC_SingleEnded(channel);`. -/
def getAnalogValue (hw : Collaborators σ γ) (self : WCS1700Current σ γ) :
    Int × WCS1700Current σ γ :=
  let r := hw.ads_readADC_SingleEnded self.channel self.ads
  (r.1, ⟨r.2, self.channel, self.calls ++ [Call.ads_readADC_SingleEnded self.channel]⟩)

/-- Method `calculateCurrent(voltage)`:
`float current = (voltage - ZERO_CURRENT_VOLTAGE) / SENSITIVITY;
return current * CALIBRATION_FACTOR;`. -/
def calculateCurrent (voltage : ℚ) : ℚ :=
  let current := (voltage - ZERO_CURRENT_VOLTAGE) / SENSITIVITY
  current * CALIBRATION_FACTOR

/-- Method `readCurrent()`: `int16_t adc = getAnalogValue();
float voltage = ads.computeVolts(adc); return calculateCurrent(voltage);`. -/
def readCurrent (hw : Collaborators σ γ) (self : WCS1700Current σ γ) :
    ℚ × WCS1700Current σ γ :=
  let a := getAnalogValue hw self
  let v := hw.ads_computeVolts a.1 a.2.ads
  (calculateCurrent v.1, ⟨v.2, a.2.channel, a.2.calls ++ [Call.ads_computeVolts a.1]⟩)

/-- Method `getCalibrationFactor()`: `return CALIBRATION_FACTOR;`. -/
def getCalibrationFactor (_self : WCS1700Current σ γ) : ℚ :=
  CALIBRATION_FACTOR

/-- The caller's read loop: the object after `n` consecutive `readCurrent()` calls. -/
def afterReads (hw : Collaborators σ γ) : Nat → WCS1700Current σ γ → WCS1700Current σ γ
  | 0, self => self
  | n + 1, self => afterReads hw n (readCurrent hw self).2

/-- The value returned by the `n`-th of `n` consecutive `readCurrent()` calls
(`n = 1` is the first call). -/
def nthReadCurrent (hw : Collaborators σ γ) (self : WCS1700Current σ γ) (n : Nat) : ℚ :=
  (readCurrent hw (afterReads hw (n - 1) self)).1

/-- The collaborator calls issued between two states of the object: the calls of
`after` beyond those already recorded in `before`. -/
def issued (before after : WCS1700Current σ γ) : List (Call γ) :=
  after.calls.drop before.calls.length

/-- State of the test driver: whether the chip acknowledges, the stored gain code, and
the number of bus start-ups seen. -/
structure MockADS where
  ack : Bool
  gain : Nat
  busStarts : Nat

/-- A test driver fixed to the raw code `raw`: `Wire.begin()` counts the bus start-ups,
`begin` reports the `ack` flag, `setGain` stores the code, every single-ended read
yields `raw` whatever the channel and the state, and `computeVolts` uses the fixed
scale `4.096 / 32768` volts per count. -/
def mockDriver (raw : Int) : Collaborators MockADS Nat where
  Wire_begin := fun s => ⟨s.ack, s.gain, s.busStarts + 1⟩
  ads_begin := fun s => (s.ack, s)
  ads_setGain := fun g s => ⟨s.ack, g, s.busStarts⟩
  ads_readADC_SingleEnded := fun _ s => (raw, s)
  ads_computeVolts := fun counts s => ((counts : ℚ) * 4.096 / 32768, s)
  GAIN_ONE := 0x0200

/-- A sensor object for the test driver: acknowledging flag `ack`, channel `ch`, stored
gain code `0`, no bus start-up yet. -/
def mockSensor (ack : Bool) (ch : Nat) : WCS1700Current MockADS Nat :=
  construct ⟨ack, 0, 0⟩ ch

end WCS1700Current

/-! ## Binary32 reading of `float`

The values a `float` takes on the target and the three operations the header uses, each
computed exactly on rationals and rounded once, to nearest with ties to even. -/

/-- A binary32 value: not-a-number, a signed infinity, or the finite value
`(-1)^neg * m * 2^e`.  Zero is `m = 0`, with its sign. -/
inductive F32 where
  | nan : F32
  | inf (neg : Bool) : F32
  | fin (neg : Bool) (m : Nat) (e : Int) : F32
deriving DecidableEq

namespace F32

/-- The finite values binary32 has: a significand below `2^24`, an exponent from `-149`
to `104`, and the significand at least `2^23` unless the exponent is the least one
(subnormal numbers and zero). -/
def Valid : F32 → Prop
  | fin _ m e => m < 2 ^ 24 ∧ -149 ≤ e ∧ e ≤ 104 ∧ (2 ^ 23 ≤ m ∨ e = -149)
  | _ => True

instance instDecidableValid (x : F32) : Decidable x.Valid := by
  cases x <;> unfold Valid <;> infer_instance

/-- Whether the value is finite (neither NaN nor an infinity). -/
def isFinite : F32 → Bool
  | fin _ _ _ => true
  | _ => false

/-- The rational a finite value stands for (`0` for NaN and the infinities). -/
def toRat : F32 → ℚ
  | fin neg m e => if neg then -((m : ℚ) * 2 ^ e) else (m : ℚ) * 2 ^ e
  | _ => 0

/-- Round to the nearest integer, ties to the even one. -/
def rne (x : ℚ) : ℤ :=
  if x - ⌊x⌋ < 1 / 2 then ⌊x⌋
  else if 1 / 2 < x - ⌊x⌋ then ⌊x⌋ + 1
  else if ⌊x⌋ % 2 = 0 then ⌊x⌋ else ⌊x⌋ + 1

/-- The exponent of the unit in the last place for a magnitude `q > 0`: 23 below the
binary exponent of `q`, and never below `-149`. -/
def expo (q : ℚ) : ℤ := max (Int.log 2 q - 23) (-149)

/-- Round the magnitude `q ≥ 0` with sign `neg` to binary32, to nearest, ties to even;
a result of `2^128` or more is an infinity. -/
def round (neg : Bool) (q : ℚ) : F32 :=
  if q = 0 then fin neg 0 (-149)
  else if (rne (q / 2 ^ expo q)).toNat = 2 ^ 24 then
    if 104 < expo q + 1 then inf neg else fin neg (2 ^ 23) (expo q + 1)
  else if 104 < expo q then inf neg
  else fin neg (rne (q / 2 ^ expo q)).toNat (expo q)

/-- The magnitude rounding produces before the overflow check. -/
def roundedMag (q : ℚ) : ℚ := (rne (q / 2 ^ expo q) : ℚ) * 2 ^ expo q

/-- Conversion of a rational constant to binary32 (zero becomes `+0`). -/
def ofRat (q : ℚ) : F32 := round (decide (q < 0)) |q|

/-- Conversion of an integer to binary32. -/
def ofInt (n : Int) : F32 := ofRat n

/-- Binary32 subtraction `a - b`. -/
def sub : F32 → F32 → F32
  | nan, _ => nan
  | _, nan => nan
  | inf s, inf t => if s = t then nan else inf s
  | inf s, fin _ _ _ => inf s
  | fin _ _ _, inf t => inf (!t)
  | fin s m e, fin t n f =>
      if toRat (fin s m e) - toRat (fin t n f) = 0 then fin (s && !t) 0 (-149)
      else round (decide (toRat (fin s m e) - toRat (fin t n f) < 0))
        |toRat (fin s m e) - toRat (fin t n f)|

/-- Binary32 multiplication `a * b`. -/
def mul : F32 → F32 → F32
  | nan, _ => nan
  | _, nan => nan
  | inf s, inf t => inf (Bool.xor s t)
  | inf s, fin t n _ => if n = 0 then nan else inf (Bool.xor s t)
  | fin s m _, inf t => if m = 0 then nan else inf (Bool.xor s t)
  | fin s m e, fin t n f => round (Bool.xor s t) (((m : ℚ) * 2 ^ e) * ((n : ℚ) * 2 ^ f))

/-- Binary32 division `a / b`. -/
def div : F32 → F32 → F32
  | nan, _ => nan
  | _, nan => nan
  | inf _, inf _ => nan
  | inf s, fin t _ _ => inf (Bool.xor s t)
  | fin s _ _, inf t => fin (Bool.xor s t) 0 (-149)
  | fin s m e, fin t n f =>
      if n = 0 then (if m = 0 then nan else inf (Bool.xor s t))
      else round (Bool.xor s t) (((m : ℚ) * 2 ^ e) / ((n : ℚ) * 2 ^ f))

end F32

/-- The library operations the header calls, as in `Collaborators`, with
`ads.computeVolts(counts)` returning a binary32. -/
structure CollaboratorsF32 (σ γ : Type) where
  Wire_begin : σ → σ
  ads_begin : σ → Bool × σ
  ads_setGain : γ → σ → σ
  ads_readADC_SingleEnded : Nat → σ → Int × σ
  ads_computeVolts : Int → σ → F32 × σ
  GAIN_ONE : γ

namespace WCS1700Current.Binary32

variable {σ γ : Type}

/-- Constant `SENSITIVITY = 0.066`, converted to `float`. -/
def SENSITIVITY : F32 := F32.ofRat 0.066

/-- Constant `ZERO_CURRENT_VOLTAGE = 0`, converted to `float`. -/
def ZERO_CURRENT_VOLTAGE : F32 := F32.ofRat 0

/-- Constant `MAX_CURRENT = 75.0`, converted to `float`. -/
def MAX_CURRENT : F32 := F32.ofRat 75.0

/-- Constant `CALIBRATION_FACTOR = 1.0`, converted to `float`. -/
def CALIBRATION_FACTOR : F32 := F32.ofRat 1.0

/-- Method `getAnalogValue()`: `return ads.readADC_SingleEnded(channel);`. -/
def getAnalogValue (hw : CollaboratorsF32 σ γ) (self : WCS1700Current σ γ) :
    Int × WCS1700Current σ γ :=
  let r := hw.ads_readADC_SingleEnded self.channel self.ads
  (r.1, ⟨r.2, self.channel, self.calls ++ [Call.ads_readADC_SingleEnded self.channel]⟩)

/-- Method `calculateCurrent(voltage)`:
`float current = (voltage - ZERO_CURRENT_VOLTAGE) / SENSITIVITY;
return current * CALIBRATION_FACTOR;`, each operation in binary32. -/
def calculateCurrent (voltage : F32) : F32 :=
  let current := F32.div (F32.sub voltage ZERO_CURRENT_VOLTAGE) SENSITIVITY
  F32.mul current CALIBRATION_FACTOR

/-- Method `readCurrent()`: `int16_t adc = getAnalogValue();
float voltage = ads.computeVolts(adc); return calculateCurrent(voltage);`. -/
def readCurrent (hw : CollaboratorsF32 σ γ) (self : WCS1700Current σ γ) :
    F32 × WCS1700Current σ γ :=
  let a := getAnalogValue hw self
  let v := hw.ads_computeVolts a.1 a.2.ads
  (calculateCurrent v.1, ⟨v.2, a.2.channel, a.2.calls ++ [Call.ads_computeVolts a.1]⟩)

/-- Modelled from the spec: the raw-to-volts conversion of the ADC driver at `GAIN_ONE`
(library code outside the header), `v = r * 4.096 / 32768`, evaluated in binary32 as
`counts * (4.096f / 32768)`. -/
def gainOneVolts (counts : Int) : F32 :=
  F32.mul (F32.ofInt counts) (F32.div (F32.ofRat 4.096) (F32.ofInt 32768))

/-- A binary32 test driver fixed to the raw code `raw`, converting to volts with
`volts`; the other operations as in `mockDriver`. -/
def mockDriverF32 (raw : Int) (volts : Int → F32) : CollaboratorsF32 MockADS Nat where
  Wire_begin := fun s => ⟨s.ack, s.gain, s.busStarts + 1⟩
  ads_begin := fun s => (s.ack, s)
  ads_setGain := fun g s => ⟨s.ack, g, s.busStarts⟩
  ads_readADC_SingleEnded := fun _ s => (raw, s)
  ads_computeVolts := fun counts s => (volts counts, s)
  GAIN_ONE := 0x0200

end WCS1700Current.Binary32

namespace WCS1700Current

variable {σ γ : Type}

/-! ## Shared lemmas -/

theorem calculateCurrent_shipped (v : ℚ) : calculateCurrent v = v / 0.066 := by
  unfold calculateCurrent ZERO_CURRENT_VOLTAGE SENSITIVITY CALIBRATION_FACTOR
  norm_num

theorem readCurrent_fst (hw : Collaborators σ γ) (self : WCS1700Current σ γ) :
    (readCurrent hw self).1 = calculateCurrent
      (hw.ads_computeVolts (hw.ads_readADC_SingleEnded self.channel self.ads).1
        (hw.ads_readADC_SingleEnded self.channel self.ads).2).1 :=
  rfl

theorem readCurrent_channel (hw : Collaborators σ γ) (self : WCS1700Current σ γ) :
    (readCurrent hw self).2.channel = self.channel :=
  rfl

theorem afterReads_channel (hw : Collaborators σ γ) (n : Nat) (self : WCS1700Current σ γ) :
    (afterReads hw n self).channel = self.channel := by
  induction n generalizing self with
  | zero => rfl
  | succ n ih => rw [afterReads, ih, readCurrent_channel]

theorem begin_fst (hw : Collaborators σ γ) (self : WCS1700Current σ γ) :
    (begin hw self).1 = (hw.ads_begin (hw.Wire_begin self.ads)).1 := by
  unfold begin
  cases h : (hw.ads_begin (hw.Wire_begin self.ads)).1 <;> simp [h]

theorem begin_issued (hw : Collaborators σ γ) (self : WCS1700Current σ γ) :
    issued self (begin hw self).2 =
      if (hw.ads_begin (hw.Wire_begin self.ads)).1 then
        [Call.Wire_begin, Call.ads_begin, Call.ads_setGain hw.GAIN_ONE]
      else [Call.Wire_begin, Call.ads_begin] := by
  unfold begin issued
  cases h : (hw.ads_begin (hw.Wire_begin self.ads)).1 <;> simp [h]

theorem begin_ads (hw : Collaborators σ γ) (self : WCS1700Current σ γ) :
    (begin hw self).2.ads =
      if (hw.ads_begin (hw.Wire_begin self.ads)).1 then
        hw.ads_setGain hw.GAIN_ONE (hw.ads_begin (hw.Wire_begin self.ads)).2
      else (hw.ads_begin (hw.Wire_begin self.ads)).2 := by
  unfold begin
  cases h : (hw.ads_begin (hw.Wire_begin self.ads)).1 <;> simp [h]

end WCS1700Current

/-! ## Binary32 rounding lemmas -/



namespace F32

theorem rne_intCast (n : ℤ) : rne (n : ℚ) = n := by
  unfold rne
  simp

theorem floor_le_rne (x : ℚ) : ⌊x⌋ ≤ rne x := by
  unfold rne
  split_ifs <;> omega

theorem rne_le_floor_add_one (x : ℚ) : rne x ≤ ⌊x⌋ + 1 := by
  unfold rne
  split_ifs <;> omega

theorem rne_mono {x y : ℚ} (h : x ≤ y) : rne x ≤ rne y := by
  have hf : ⌊x⌋ ≤ ⌊y⌋ := Int.floor_mono h
  rcases lt_or_eq_of_le hf with hlt | heq
  · calc rne x ≤ ⌊x⌋ + 1 := rne_le_floor_add_one x
      _ ≤ ⌊y⌋ := hlt
      _ ≤ rne y := floor_le_rne y
  · unfold rne
    rw [heq]
    split_ifs <;> first | omega | (exfalso; linarith)

theorem rne_le_of_le {x : ℚ} {n : ℤ} (h : x ≤ n) : rne x ≤ n := by
  have := rne_mono h
  rwa [rne_intCast] at this

theorem le_rne_of_le {x : ℚ} {n : ℤ} (h : (n : ℚ) ≤ x) : n ≤ rne x := by
  have := rne_mono h
  rwa [rne_intCast] at this

theorem rne_eq_of_near {x : ℚ} {n : ℤ} (h : |x - n| < 1 / 2) : rne x = n := by
  rw [abs_lt] at h
  rcases le_or_lt (n : ℚ) x with hle | hlt
  · have hfl : ⌊x⌋ = n := by
      rw [Int.floor_eq_iff]
      constructor <;> linarith
    unfold rne
    rw [hfl, if_pos (by linarith)]
  · have hfl : ⌊x⌋ = n - 1 := by
      rw [Int.floor_eq_iff]
      push_cast
      constructor <;> linarith
    unfold rne
    rw [hfl]
    push_cast
    rw [if_neg (by linarith), if_pos (by linarith)]
    ring

theorem two_zpow_pos (e : ℤ) : (0 : ℚ) < 2 ^ e := zpow_pos (by norm_num) e

theorem log_spec {q : ℚ} (hq : 0 < q) :
    (2 : ℚ) ^ Int.log 2 q ≤ q ∧ q < 2 ^ (Int.log 2 q + 1) := by
  have h1 := Int.zpow_log_le_self (b := 2) (by norm_num) hq
  have h2 := Int.lt_zpow_succ_log_self (b := 2) (by norm_num) q
  simp only [Nat.cast_ofNat] at h1 h2
  exact ⟨h1, h2⟩

theorem log_eq_of {q : ℚ} {L : ℤ} (h1 : (2 : ℚ) ^ L ≤ q) (h2 : q < 2 ^ (L + 1)) :
    Int.log 2 q = L := by
  have hq : 0 < q := lt_of_lt_of_le (two_zpow_pos L) h1
  have a := (Int.zpow_le_iff_le_log (b := 2) (by norm_num) (x := L) hq).1
    (by simpa using h1)
  have b := (Int.lt_zpow_iff_log_lt (b := 2) (by norm_num) (x := L + 1) hq).1
    (by simpa using h2)
  omega


theorem two_zpow_add (a b : ℤ) : (2 : ℚ) ^ (a + b) = 2 ^ a * 2 ^ b :=
  zpow_add₀ (by norm_num) a b

theorem two_zpow_le {a b : ℤ} (h : a ≤ b) : (2 : ℚ) ^ a ≤ 2 ^ b :=
  zpow_le_zpow_right₀ (by norm_num) h

theorem two_zpow_lt {a b : ℤ} (h : a < b) : (2 : ℚ) ^ a < 2 ^ b :=
  zpow_lt_zpow_right₀ (by norm_num) h

theorem expo_ge (q : ℚ) : -149 ≤ expo q := le_max_right _ _

theorem expo_ge_log (q : ℚ) : Int.log 2 q - 23 ≤ expo q := le_max_left _ _

theorem expo_cases (q : ℚ) : expo q = Int.log 2 q - 23 ∨ expo q = -149 := by
  unfold expo
  rcases le_total (Int.log 2 q - 23) (-149) with h | h
  · right; exact max_eq_right h
  · left; exact max_eq_left h

theorem expo_mono {q₁ q₂ : ℚ} (h0 : 0 < q₁) (h : q₁ ≤ q₂) : expo q₁ ≤ expo q₂ := by
  unfold expo
  have := Int.log_mono_right (b := 2) h0 h
  exact max_le_max (by omega) le_rfl

/-- The scaled magnitude lies below `2 ^ 24`. -/
theorem lt_of_expo {q : ℚ} (hq : 0 < q) : q < 2 ^ (24 : ℤ) * 2 ^ expo q := by
  have h := (log_spec hq).2
  have hle : Int.log 2 q + 1 ≤ 24 + expo q := by have := expo_ge_log q; omega
  calc q < 2 ^ (Int.log 2 q + 1) := h
    _ ≤ 2 ^ (24 + expo q) := two_zpow_le hle
    _ = 2 ^ (24 : ℤ) * 2 ^ expo q := two_zpow_add _ _

/-- Above the subnormal range the scaled magnitude is at least `2 ^ 23`. -/
theorem le_of_expo {q : ℚ} (hq : 0 < q) (he : expo q ≠ -149) :
    2 ^ (23 : ℤ) * 2 ^ expo q ≤ q := by
  have h := (log_spec hq).1
  have heq : expo q = Int.log 2 q - 23 := by
    rcases expo_cases q with h | h
    · exact h
    · exact absurd h he
  calc (2 : ℚ) ^ (23 : ℤ) * 2 ^ expo q = 2 ^ (23 + expo q) := (two_zpow_add _ _).symm
    _ = 2 ^ Int.log 2 q := by rw [heq]; congr 1; omega
    _ ≤ q := h

theorem scaled_lt {q : ℚ} (hq : 0 < q) : q / 2 ^ expo q < 2 ^ (24 : ℤ) := by
  rw [div_lt_iff₀ (two_zpow_pos _)]
  exact lt_of_expo hq

theorem le_scaled {q : ℚ} (hq : 0 < q) (he : expo q ≠ -149) :
    2 ^ (23 : ℤ) ≤ q / 2 ^ expo q := by
  rw [le_div_iff₀ (two_zpow_pos _)]
  exact le_of_expo hq he

theorem rne_scaled_nonneg {q : ℚ} (hq : 0 < q) : 0 ≤ rne (q / 2 ^ expo q) := by
  apply le_rne_of_le
  push_cast
  exact le_of_lt (div_pos hq (two_zpow_pos _))

theorem rne_scaled_le {q : ℚ} (hq : 0 < q) : rne (q / 2 ^ expo q) ≤ 2 ^ 24 := by
  apply rne_le_of_le
  push_cast
  have := scaled_lt hq
  norm_num at this ⊢
  linarith

theorem le_rne_scaled {q : ℚ} (hq : 0 < q) (he : expo q ≠ -149) :
    2 ^ 23 ≤ rne (q / 2 ^ expo q) := by
  apply le_rne_of_le
  push_cast
  have := le_scaled hq he
  norm_num at this ⊢
  linarith

theorem roundedMag_mono {q₁ q₂ : ℚ} (h0 : 0 < q₁) (h : q₁ ≤ q₂) :
    roundedMag q₁ ≤ roundedMag q₂ := by
  have h2 : 0 < q₂ := lt_of_lt_of_le h0 h
  unfold roundedMag
  rcases lt_or_eq_of_le (expo_mono h0 h) with hlt | heq
  · have hne : expo q₂ ≠ -149 := by have := expo_ge q₁; omega
    have a : ((rne (q₁ / 2 ^ expo q₁) : ℤ) : ℚ) ≤ 2 ^ (24 : ℤ) := by
      have := rne_scaled_le h0
      have : ((rne (q₁ / 2 ^ expo q₁) : ℤ) : ℚ) ≤ ((2 ^ 24 : ℤ) : ℚ) := by exact_mod_cast this
      norm_num at this ⊢
      exact this
    have b : (2 : ℚ) ^ (23 : ℤ) ≤ ((rne (q₂ / 2 ^ expo q₂) : ℤ) : ℚ) := by
      have := le_rne_scaled h2 hne
      have : ((2 ^ 23 : ℤ) : ℚ) ≤ ((rne (q₂ / 2 ^ expo q₂) : ℤ) : ℚ) := by exact_mod_cast this
      norm_num at this ⊢
      exact this
    calc ((rne (q₁ / 2 ^ expo q₁) : ℤ) : ℚ) * 2 ^ expo q₁
        ≤ 2 ^ (24 : ℤ) * 2 ^ expo q₁ :=
          mul_le_mul_of_nonneg_right a (le_of_lt (two_zpow_pos _))
      _ = 2 ^ (24 + expo q₁) := (two_zpow_add _ _).symm
      _ ≤ 2 ^ (23 + expo q₂) := two_zpow_le (by omega)
      _ = 2 ^ (23 : ℤ) * 2 ^ expo q₂ := two_zpow_add _ _
      _ ≤ ((rne (q₂ / 2 ^ expo q₂) : ℤ) : ℚ) * 2 ^ expo q₂ :=
          mul_le_mul_of_nonneg_right b (le_of_lt (two_zpow_pos _))
  · rw [heq]
    apply mul_le_mul_of_nonneg_right _ (le_of_lt (two_zpow_pos _))
    have : rne (q₁ / 2 ^ expo q₂) ≤ rne (q₂ / 2 ^ expo q₂) :=
      rne_mono (div_le_div_of_nonneg_right h (le_of_lt (two_zpow_pos _)))
    exact_mod_cast this


theorem natCast_toNat_rne {q : ℚ} (hq : 0 < q) :
    (((rne (q / 2 ^ expo q)).toNat : ℕ) : ℚ) = ((rne (q / 2 ^ expo q) : ℤ) : ℚ) := by
  have h := Int.toNat_of_nonneg (rne_scaled_nonneg hq)
  exact_mod_cast congrArg (fun z : ℤ => (z : ℚ)) h

theorem roundedMag_eq {q : ℚ} (hq : 0 < q) :
    roundedMag q = (((rne (q / 2 ^ expo q)).toNat : ℕ) : ℚ) * 2 ^ expo q := by
  rw [natCast_toNat_rne hq]
  rfl

theorem toNat_rne_le {q : ℚ} (hq : 0 < q) : (rne (q / 2 ^ expo q)).toNat ≤ 2 ^ 24 := by
  have h1 := rne_scaled_le hq
  have h2 := Int.toNat_of_nonneg (rne_scaled_nonneg hq)
  omega

theorem le_toNat_rne {q : ℚ} (hq : 0 < q) (he : expo q ≠ -149) :
    2 ^ 23 ≤ (rne (q / 2 ^ expo q)).toNat := by
  have h1 := le_rne_scaled hq he
  have h2 := Int.toNat_of_nonneg (rne_scaled_nonneg hq)
  omega

/-- Below the overflow threshold rounding yields a valid finite value, whose magnitude
is the rounded magnitude. -/
theorem round_fin_of_lt (s : Bool) {q : ℚ} (hq : 0 < q)
    (h : roundedMag q < 2 ^ (128 : ℤ)) :
    ∃ m e, round s q = fin s m e ∧ Valid (fin s m e) ∧ (m : ℚ) * 2 ^ e = roundedMag q := by
  have hR := roundedMag_eq hq
  have hle := toNat_rne_le hq
  have hge := expo_ge q
  unfold round
  rw [if_neg (ne_of_gt hq)]
  by_cases hm : (rne (q / 2 ^ expo q)).toNat = 2 ^ 24
  · rw [if_pos hm]
    have hval : roundedMag q = 2 ^ (24 + expo q) := by
      rw [hR, hm, two_zpow_add]; norm_num
    have hlt : 24 + expo q < 128 := by
      rw [hval] at h
      exact (zpow_lt_zpow_iff_right₀ (by norm_num : (1 : ℚ) < 2)).1 h
    rw [if_neg (by omega)]
    refine ⟨2 ^ 23, expo q + 1, rfl, ⟨by norm_num, by omega, by omega, Or.inl le_rfl⟩, ?_⟩
    rw [hval, two_zpow_add, two_zpow_add]
    norm_num
    ring
  · rw [if_neg hm]
    have hexp : ¬ 104 < expo q := by
      intro hgt
      have hne : expo q ≠ -149 := by omega
      have h23 := le_toNat_rne hq hne
      have : (2 : ℚ) ^ (128 : ℤ) ≤ roundedMag q := by
        rw [hR]
        calc (2 : ℚ) ^ (128 : ℤ) ≤ 2 ^ (23 + expo q) := two_zpow_le (by omega)
          _ = 2 ^ (23 : ℤ) * 2 ^ expo q := two_zpow_add _ _
          _ ≤ _ := by
            apply mul_le_mul_of_nonneg_right _ (le_of_lt (two_zpow_pos _))
            have : ((2 ^ 23 : ℕ) : ℚ) ≤ (((rne (q / 2 ^ expo q)).toNat : ℕ) : ℚ) := by
              exact_mod_cast h23
            norm_num at this ⊢
            exact this
      linarith
    rw [if_neg hexp]
    refine ⟨_, _, rfl, ⟨by omega, hge, by omega, ?_⟩, hR.symm⟩
    by_cases he : expo q = -149
    · exact Or.inr he
    · exact Or.inl (le_toNat_rne hq he)

/-- The exponent chosen for the value of a valid nonzero binary32 is its own. -/
theorem expo_of_valid {s : Bool} {m : ℕ} {e : ℤ} (hv : Valid (fin s m e)) (hm : 0 < m) :
    expo ((m : ℚ) * 2 ^ e) = e := by
  obtain ⟨h24, hlo, _, hnorm⟩ := hv
  have hmq : (0 : ℚ) < m := by exact_mod_cast hm
  have hq : (0 : ℚ) < (m : ℚ) * 2 ^ e := mul_pos hmq (two_zpow_pos e)
  have h24q : (m : ℚ) < 2 ^ (24 : ℤ) := by
    have : (m : ℚ) < ((2 ^ 24 : ℕ) : ℚ) := by exact_mod_cast h24
    norm_num at this ⊢
    exact this
  unfold expo
  rcases hnorm with h23 | he
  · have h23q : (2 : ℚ) ^ (23 : ℤ) ≤ m := by
      have : ((2 ^ 23 : ℕ) : ℚ) ≤ (m : ℚ) := by exact_mod_cast h23
      norm_num at this ⊢
      exact this
    have hlog : Int.log 2 ((m : ℚ) * 2 ^ e) = 23 + e := by
      apply log_eq_of
      · rw [two_zpow_add]
        exact mul_le_mul_of_nonneg_right h23q (le_of_lt (two_zpow_pos _))
      · have : (23 : ℤ) + e + 1 = 24 + e := by ring
        rw [this, two_zpow_add]
        exact mul_lt_mul_of_pos_right h24q (two_zpow_pos _)
    rw [hlog]
    have : (23 : ℤ) + e - 23 = e := by ring
    rw [this]
    exact max_eq_left hlo
  · by_cases h23 : 2 ^ 23 ≤ m
    · have h23q : (2 : ℚ) ^ (23 : ℤ) ≤ m := by
        have : ((2 ^ 23 : ℕ) : ℚ) ≤ (m : ℚ) := by exact_mod_cast h23
        norm_num at this ⊢
        exact this
      have hlog : Int.log 2 ((m : ℚ) * 2 ^ e) = 23 + e := by
        apply log_eq_of
        · rw [two_zpow_add]
          exact mul_le_mul_of_nonneg_right h23q (le_of_lt (two_zpow_pos _))
        · have : (23 : ℤ) + e + 1 = 24 + e := by ring
          rw [this, two_zpow_add]
          exact mul_lt_mul_of_pos_right h24q (two_zpow_pos _)
      rw [hlog]
      have : (23 : ℤ) + e - 23 = e := by ring
      rw [this]
      exact max_eq_left hlo
    · have hlt : (m : ℚ) < 2 ^ (23 : ℤ) := by
        have : (m : ℚ) < ((2 ^ 23 : ℕ) : ℚ) := by exact_mod_cast (not_le.1 h23)
        norm_num at this ⊢
        exact this
      have hlog : Int.log 2 ((m : ℚ) * 2 ^ e) < 23 + e := by
        apply (Int.lt_zpow_iff_log_lt (b := 2) (by norm_num) hq).1
        simp only [Nat.cast_ofNat]
        rw [two_zpow_add]
        exact mul_lt_mul_of_pos_right hlt (two_zpow_pos _)
      rw [he] at hlog ⊢
      exact max_eq_right (by omega)

theorem scaled_of_valid {s : Bool} {m : ℕ} {e : ℤ} (hv : Valid (fin s m e)) (hm : 0 < m) :
    rne ((m : ℚ) * 2 ^ e / 2 ^ expo ((m : ℚ) * 2 ^ e)) = m := by
  rw [expo_of_valid hv hm, mul_div_assoc, div_self (ne_of_gt (two_zpow_pos e)), mul_one]
  have := rne_intCast (m : ℤ)
  simpa using this

theorem roundedMag_of_valid {s : Bool} {m : ℕ} {e : ℤ} (hv : Valid (fin s m e))
    (hm : 0 < m) : roundedMag ((m : ℚ) * 2 ^ e) = (m : ℚ) * 2 ^ e := by
  unfold roundedMag
  rw [scaled_of_valid hv hm, expo_of_valid hv hm]
  simp

/-- Rounding the value of a valid binary32 gives that binary32 back. -/
theorem round_of_valid {s : Bool} {m : ℕ} {e : ℤ} (hv : Valid (fin s m e)) :
    round s ((m : ℚ) * 2 ^ e) = fin s m e := by
  rcases Nat.eq_zero_or_pos m with h0 | hm
  · subst h0
    obtain ⟨_, _, _, hnorm⟩ := hv
    have he : e = -149 := by
      rcases hnorm with h | h
      · norm_num at h
      · exact h
    unfold round
    simp [he]
  · have hmq : (0 : ℚ) < m := by exact_mod_cast hm
    have hq : (0 : ℚ) < (m : ℚ) * 2 ^ e := mul_pos hmq (two_zpow_pos e)
    have h24 : m < 2 ^ 24 := hv.1
    have hhi : e ≤ 104 := hv.2.2.1
    unfold round
    rw [if_neg (ne_of_gt hq), scaled_of_valid hv hm, expo_of_valid hv hm]
    simp only [Int.toNat_ofNat]
    rw [if_neg (by omega), if_neg (by omega)]


/-- Every result of rounding is a valid binary32. -/
theorem round_valid (s : Bool) {q : ℚ} (hq : 0 ≤ q) : Valid (round s q) := by
  rcases eq_or_lt_of_le hq with h0 | hpos
  · rw [← h0]
    unfold round
    simp [Valid]
  · have hle := toNat_rne_le hpos
    have hge := expo_ge q
    unfold round
    rw [if_neg (ne_of_gt hpos)]
    split_ifs with h1 h2 h3
    · trivial
    · exact ⟨by norm_num, by omega, by omega, Or.inl le_rfl⟩
    · trivial
    · refine ⟨by omega, hge, by omega, ?_⟩
      by_cases he : expo q = -149
      · exact Or.inr he
      · exact Or.inl (le_toNat_rne hpos he)

/-- A finite rounding result carries the rounded magnitude, which is below `2 ^ 128`. -/
theorem roundedMag_of_round_fin {s t : Bool} {q : ℚ} {M : ℕ} {E : ℤ} (hq : 0 < q)
    (h : round s q = fin t M E) :
    (M : ℚ) * 2 ^ E = roundedMag q ∧ roundedMag q < 2 ^ (128 : ℤ) := by
  have hR := roundedMag_eq hq
  have hle := toNat_rne_le hq
  unfold round at h
  rw [if_neg (ne_of_gt hq)] at h
  split_ifs at h with h1 h2 h3
  · injection h with _ hM hE
    have hval : roundedMag q = 2 ^ (24 + expo q) := by
      rw [hR, h1, two_zpow_add]; norm_num
    constructor
    · rw [hval, ← hM, ← hE, two_zpow_add, two_zpow_add]
      norm_num
      ring
    · rw [hval]
      exact two_zpow_lt (by omega)
  · injection h with _ hM hE
    constructor
    · rw [hR, ← hM, ← hE]
    · rw [hR]
      have hlt : (((rne (q / 2 ^ expo q)).toNat : ℕ) : ℚ) < 2 ^ (24 : ℤ) := by
        have : (((rne (q / 2 ^ expo q)).toNat : ℕ) : ℚ) < ((2 ^ 24 : ℕ) : ℚ) := by
          exact_mod_cast lt_of_le_of_ne hle h1
        norm_num at this ⊢
        exact this
      calc (((rne (q / 2 ^ expo q)).toNat : ℕ) : ℚ) * 2 ^ expo q
          < 2 ^ (24 : ℤ) * 2 ^ expo q := mul_lt_mul_of_pos_right hlt (two_zpow_pos _)
        _ = 2 ^ (24 + expo q) := (two_zpow_add _ _).symm
        _ ≤ 2 ^ (128 : ℤ) := two_zpow_le (by omega)

/-- Rounding is monotone: below an argument with a finite result, the result is finite,
valid and no larger in magnitude. -/
theorem round_mono_fin (s : Bool) {t : Bool} {q₁ q₂ : ℚ} {M : ℕ} {E : ℤ} (h0 : 0 ≤ q₁)
    (h : q₁ ≤ q₂) (h2 : round t q₂ = fin t M E) :
    ∃ m e, round s q₁ = fin s m e ∧ Valid (fin s m e) ∧ (m : ℚ) * 2 ^ e ≤ (M : ℚ) * 2 ^ E := by
  rcases eq_or_lt_of_le h0 with hz | hpos
  · refine ⟨0, -149, ?_, ?_, ?_⟩
    · rw [← hz]; unfold round; simp
    · simp [Valid]
    · have : (0 : ℚ) ≤ (M : ℚ) * 2 ^ E :=
        mul_nonneg (Nat.cast_nonneg M) (le_of_lt (two_zpow_pos E))
      simpa using this
  · have hq2 : 0 < q₂ := lt_of_lt_of_le hpos h
    obtain ⟨hME, hlt⟩ := roundedMag_of_round_fin hq2 h2
    have hmono := roundedMag_mono hpos h
    obtain ⟨m, e, hr, hv, hval⟩ := round_fin_of_lt s hpos (lt_of_le_of_lt hmono hlt)
    exact ⟨m, e, hr, hv, by rw [hval, hME]; exact hmono⟩

/-- Rounding never exceeds a valid binary32 that bounds the argument. -/
theorem round_le_of_le (s : Bool) {t : Bool} {q : ℚ} {M : ℕ} {E : ℤ} (h0 : 0 ≤ q)
    (hv : Valid (fin t M E)) (h : q ≤ (M : ℚ) * 2 ^ E) :
    ∃ m e, round s q = fin s m e ∧ Valid (fin s m e) ∧ (m : ℚ) * 2 ^ e ≤ (M : ℚ) * 2 ^ E :=
  round_mono_fin s h0 h (round_of_valid hv)

/-- Certificate for a rounding result in the normal or subnormal range: the exponent
is the one chosen for `q` and the significand is within half a unit of the scaled
magnitude. -/
theorem round_eq_of_near (s : Bool) {q : ℚ} {m : ℕ} {e : ℤ} (hq : 0 < q)
    (he : expo q = e) (hm : m < 2 ^ 24) (hhi : e ≤ 104)
    (hnear : |q / 2 ^ e - m| < 1 / 2) : round s q = fin s m e := by
  have hr : rne (q / 2 ^ e) = (m : ℤ) := by
    apply rne_eq_of_near
    simpa using hnear
  unfold round
  rw [if_neg (ne_of_gt hq), he, hr]
  simp only [Int.toNat_ofNat]
  rw [if_neg (by omega), if_neg (by omega)]

/-- The exponent chosen for a magnitude in the binade `[2 ^ (23 + e), 2 ^ (24 + e))`. -/
theorem expo_eq_of_binade {q : ℚ} {e : ℤ} (hlo : -149 ≤ e) (h1 : (2 : ℚ) ^ (23 + e) ≤ q)
    (h2 : q < 2 ^ (24 + e)) : expo q = e := by
  have hlog : Int.log 2 q = 23 + e := by
    apply log_eq_of h1
    have : (23 : ℤ) + e + 1 = 24 + e := by ring
    rw [this]
    exact h2
  unfold expo
  rw [hlog]
  have : (23 : ℤ) + e - 23 = e := by ring
  rw [this]
  exact max_eq_left hlo

theorem sub_pos_zero {v : F32} (hv : Valid v) : sub v (fin false 0 (-149)) = v := by
  cases v with
  | nan => rfl
  | inf s => rfl
  | fin s m e =>
    rcases Nat.eq_zero_or_pos m with h0 | hm
    · subst h0
      have he : e = -149 := by
        rcases hv.2.2.2 with h | h
        · norm_num at h
        · exact h
      subst he
      simp [sub, toRat]
    · have hmq : (0 : ℚ) < m := by exact_mod_cast hm
      have hq : (0 : ℚ) < (m : ℚ) * 2 ^ e := mul_pos hmq (two_zpow_pos e)
      cases s with
      | false =>
        have hne : ¬ ((m : ℚ) * 2 ^ e = 0) := ne_of_gt hq
        have hnlt : ¬ ((m : ℚ) * 2 ^ e < 0) := not_lt.2 (le_of_lt hq)
        simp only [sub, toRat, Bool.false_eq_true, if_false, Nat.cast_zero, zero_mul,
          sub_zero, hne, hnlt, decide_False, abs_of_pos hq]
        exact round_of_valid hv
      | true =>
        have hne : ¬ (-((m : ℚ) * 2 ^ e) = 0) := by
          intro h; linarith
        have hlt : -((m : ℚ) * 2 ^ e) < 0 := by linarith
        simp only [sub, toRat, if_true, Bool.false_eq_true, if_false, Nat.cast_zero,
          zero_mul, sub_zero, hne, hlt, decide_True, abs_neg, abs_of_pos hq]
        exact round_of_valid hv

theorem mul_one_valid {v : F32} (hv : Valid v) : mul v (fin false 8388608 (-23)) = v := by
  cases v with
  | nan => rfl
  | inf s => simp [mul]
  | fin s m e =>
    have h1 : ((8388608 : ℕ) : ℚ) * 2 ^ (-23 : ℤ) = 1 := by norm_num
    simp only [mul, Bool.xor_false, h1, mul_one]
    exact round_of_valid hv


theorem abs_toRat_fin (s : Bool) (m : ℕ) (e : ℤ) :
    |toRat (fin s m e)| = (m : ℚ) * 2 ^ e := by
  have h : (0 : ℚ) ≤ (m : ℚ) * 2 ^ e :=
    mul_nonneg (Nat.cast_nonneg m) (le_of_lt (two_zpow_pos e))
  cases s
  · simp [toRat, abs_of_nonneg h]
  · simp [toRat, abs_of_nonneg h]

theorem div_fin_fin (s t : Bool) (m n : ℕ) (e f : ℤ) (hn : n ≠ 0) :
    div (fin s m e) (fin t n f)
      = round (Bool.xor s t) (((m : ℚ) * 2 ^ e) / ((n : ℚ) * 2 ^ f)) := by
  simp only [div, hn, if_false]

theorem mul_fin_fin (s t : Bool) (m n : ℕ) (e f : ℤ) :
    mul (fin s m e) (fin t n f)
      = round (Bool.xor s t) (((m : ℚ) * 2 ^ e) * ((n : ℚ) * 2 ^ f)) := rfl

theorem ofRat_of_pos {q : ℚ} (hq : 0 < q) : ofRat q = round false q := by
  unfold ofRat
  rw [abs_of_pos hq, decide_eq_false (not_lt.2 (le_of_lt hq))]

theorem ofRat_zero : ofRat 0 = fin false 0 (-149) := by
  unfold ofRat round
  simp

/-- Certificate for a concrete rounding result. -/
theorem round_eq_cert (s : Bool) {q : ℚ} {m : ℕ} {e : ℤ} (hlo : -149 ≤ e) (hhi : e ≤ 104)
    (hm : m < 2 ^ 24) (h1 : (2 : ℚ) ^ (23 + e) ≤ q) (h2 : q < 2 ^ (24 + e))
    (hnear : |q / 2 ^ e - m| < 1 / 2) : round s q = fin s m e :=
  round_eq_of_near s (lt_of_lt_of_le (two_zpow_pos _) h1) (expo_eq_of_binade hlo h1 h2)
    hm hhi hnear

end F32

namespace F32

/-- Every quotient is a valid binary32. -/
theorem div_valid (a b : F32) : Valid (div a b) := by
  cases a with
  | nan => cases b <;> trivial
  | inf s => cases b <;> trivial
  | fin s m e =>
    cases b with
    | nan => trivial
    | inf t => simp [div, Valid]
    | fin t n f =>
      simp only [div]
      split_ifs
      · trivial
      · trivial
      · exact round_valid _ (div_nonneg
          (mul_nonneg (Nat.cast_nonneg m) (le_of_lt (two_zpow_pos e)))
          (mul_nonneg (Nat.cast_nonneg n) (le_of_lt (two_zpow_pos f))))

end F32

/-! ## Binary32 reading of the header -/

namespace WCS1700Current.Binary32

open F32

variable {σ γ : Type}

theorem SENSITIVITY_eq : SENSITIVITY = fin false 8858370 (-27) := by
  unfold SENSITIVITY
  rw [ofRat_of_pos (by norm_num)]
  exact round_eq_cert false (by norm_num) (by norm_num) (by norm_num) (by norm_num)
    (by norm_num) (by norm_num [abs_lt])

theorem ZERO_CURRENT_VOLTAGE_eq : ZERO_CURRENT_VOLTAGE = fin false 0 (-149) :=
  ofRat_zero

theorem CALIBRATION_FACTOR_eq : CALIBRATION_FACTOR = fin false 8388608 (-23) := by
  unfold CALIBRATION_FACTOR
  rw [ofRat_of_pos (by norm_num)]
  exact round_eq_cert false (by norm_num) (by norm_num) (by norm_num) (by norm_num)
    (by norm_num) (by norm_num [abs_lt])

theorem MAX_CURRENT_eq : MAX_CURRENT = fin false 9830400 (-17) := by
  unfold MAX_CURRENT
  rw [ofRat_of_pos (by norm_num)]
  exact round_eq_cert false (by norm_num) (by norm_num) (by norm_num) (by norm_num)
    (by norm_num) (by norm_num [abs_lt])

/-- Every value within `2^-57` of `0.066`, so also the double nearest to `0.066`, converts
to the same binary32 as `0.066` itself. -/
theorem ofRat_near_sensitivity (d : ℚ) (h : |d - 0.066| ≤ 2 ^ (-57 : ℤ)) :
    ofRat d = SENSITIVITY := by
  rw [SENSITIVITY_eq]
  rw [abs_le] at h
  obtain ⟨h1, h2⟩ := h
  norm_num at h1 h2
  have hd : 0 < d := by linarith
  rw [ofRat_of_pos hd]
  refine round_eq_cert false (by norm_num) (by norm_num) (by norm_num) ?_ ?_ ?_
  · norm_num; linarith
  · norm_num; linarith
  · rw [abs_lt]
    norm_num
    constructor <;> linarith

theorem readCurrent_binary32_fst (hw : CollaboratorsF32 σ γ) (self : WCS1700Current σ γ) :
    (readCurrent hw self).1 = calculateCurrent
      (hw.ads_computeVolts (hw.ads_readADC_SingleEnded self.channel self.ads).1
        (hw.ads_readADC_SingleEnded self.channel self.ads).2).1 :=
  rfl

/-- With the shipped constants the computation is one binary32 division. -/
theorem calculateCurrent_eq_div {v : F32} (hv : v.Valid) :
    calculateCurrent v = F32.div v SENSITIVITY := by
  show F32.mul (F32.div (F32.sub v ZERO_CURRENT_VOLTAGE) SENSITIVITY) CALIBRATION_FACTOR = _
  rw [ZERO_CURRENT_VOLTAGE_eq, sub_pos_zero hv, CALIBRATION_FACTOR_eq,
    mul_one_valid (div_valid _ _)]

theorem calculateCurrent_fin {s : Bool} {m : ℕ} {e : ℤ} (hv : Valid (fin s m e)) :
    calculateCurrent (fin s m e)
      = F32.round s (((m : ℚ) * 2 ^ e) / (((8858370 : ℕ) : ℚ) * 2 ^ (-27 : ℤ))) := by
  rw [calculateCurrent_eq_div hv, SENSITIVITY_eq, div_fin_fin _ _ _ _ _ _ (by norm_num),
    Bool.xor_false]

/-- A bound on the voltage magnitude by a binary32 carries over to the current. -/
theorem calculateCurrent_le {s : Bool} {m M M' : ℕ} {e E E' : ℤ} (hv : Valid (fin s m e))
    (hle : (m : ℚ) * 2 ^ e ≤ (M : ℚ) * 2 ^ E)
    (hB : F32.round false (((M : ℚ) * 2 ^ E) / (((8858370 : ℕ) : ℚ) * 2 ^ (-27 : ℤ)))
      = fin false M' E') :
    ∃ m' e', calculateCurrent (fin s m e) = fin s m' e'
      ∧ (m' : ℚ) * 2 ^ e' ≤ (M' : ℚ) * 2 ^ E' := by
  rw [calculateCurrent_fin hv]
  have hS : (0 : ℚ) < ((8858370 : ℕ) : ℚ) * 2 ^ (-27 : ℤ) := by norm_num
  have h0 : (0 : ℚ) ≤ ((m : ℚ) * 2 ^ e) / (((8858370 : ℕ) : ℚ) * 2 ^ (-27 : ℤ)) :=
    div_nonneg (mul_nonneg (Nat.cast_nonneg m) (le_of_lt (two_zpow_pos e))) (le_of_lt hS)
  obtain ⟨m', e', h1, _, h3⟩ :=
    round_mono_fin s h0 (div_le_div_of_nonneg_right hle (le_of_lt hS)) hB
  exact ⟨m', e', h1, h3⟩

end WCS1700Current.Binary32

namespace F32

theorem ofRat_of_neg {q : ℚ} (hq : q < 0) : ofRat q = round true (-q) := by
  unfold ofRat
  rw [abs_of_neg hq, decide_eq_true hq]

end F32

namespace WCS1700Current.Binary32

open F32

variable {σ γ : Type}

theorem ofRat_1_65 : ofRat 1.65 = fin false 13841203 (-23) := by
  rw [ofRat_of_pos (by norm_num)]
  exact round_eq_cert false (by norm_num) (by norm_num) (by norm_num) (by norm_num)
    (by norm_num) (by norm_num [abs_lt])

theorem ofRat_25 : ofRat 25.0 = fin false 13107200 (-19) := by
  rw [ofRat_of_pos (by norm_num)]
  exact round_eq_cert false (by norm_num) (by norm_num) (by norm_num) (by norm_num)
    (by norm_num) (by norm_num [abs_lt])

theorem calculateCurrent_1_65 :
    calculateCurrent (fin false 13841203 (-23)) = fin false 13107200 (-19) := by
  rw [calculateCurrent_fin (by simp [Valid])]
  exact round_eq_cert false (by norm_num) (by norm_num) (by norm_num) (by norm_num)
    (by norm_num) (by norm_num [abs_lt])

/-- The scale `4.096f / 32768` of the `GAIN_ONE` conversion. -/
theorem gainOne_scale : F32.div (ofRat 4.096) (ofInt 32768) = fin false 8589935 (-36) := by
  have h1 : ofRat 4.096 = fin false 8589935 (-21) := by
    rw [ofRat_of_pos (by norm_num)]
    exact round_eq_cert false (by norm_num) (by norm_num) (by norm_num) (by norm_num)
      (by norm_num) (by norm_num [abs_lt])
  have h2 : ofInt 32768 = fin false 8388608 (-8) := by
    unfold ofInt
    rw [ofRat_of_pos (by norm_num)]
    exact round_eq_cert false (by norm_num) (by norm_num) (by norm_num) (by norm_num)
      (by norm_num) (by norm_num [abs_lt])
  rw [h1, h2, div_fin_fin _ _ _ _ _ _ (by norm_num)]
  exact round_eq_cert _ (by norm_num) (by norm_num) (by norm_num) (by norm_num)
    (by norm_num) (by norm_num [abs_lt])

theorem gainOneVolts_13200 : gainOneVolts 13200 = fin false 13841204 (-23) := by
  have h : ofInt 13200 = fin false 13516800 (-10) := by
    unfold ofInt
    rw [ofRat_of_pos (by norm_num)]
    exact round_eq_cert false (by norm_num) (by norm_num) (by norm_num) (by norm_num)
      (by norm_num) (by norm_num [abs_lt])
  unfold gainOneVolts
  rw [gainOne_scale, h, mul_fin_fin]
  exact round_eq_cert _ (by norm_num) (by norm_num) (by norm_num) (by norm_num)
    (by norm_num) (by norm_num [abs_lt])

theorem calculateCurrent_13200 :
    calculateCurrent (gainOneVolts 13200) = fin false 13107201 (-19) := by
  rw [gainOneVolts_13200, calculateCurrent_fin (by simp [Valid])]
  exact round_eq_cert false (by norm_num) (by norm_num) (by norm_num) (by norm_num)
    (by norm_num) (by norm_num [abs_lt])

theorem gainOneVolts_min : gainOneVolts (-32768) = fin true 8589935 (-21) := by
  have h : ofInt (-32768) = fin true 8388608 (-8) := by
    unfold ofInt
    rw [ofRat_of_neg (by norm_num)]
    exact round_eq_cert true (by norm_num) (by norm_num) (by norm_num) (by norm_num)
      (by norm_num) (by norm_num [abs_lt])
  unfold gainOneVolts
  rw [gainOne_scale, h, mul_fin_fin]
  exact round_eq_cert _ (by norm_num) (by norm_num) (by norm_num) (by norm_num)
    (by norm_num) (by norm_num [abs_lt])

/-- The correctly rounded quotient of the binary32 full scale `4.096f` by `0.066f`. -/
theorem round_fullScale :
    F32.round false ((((8589935 : ℕ) : ℚ) * 2 ^ (-21 : ℤ))
        / (((8858370 : ℕ) : ℚ) * 2 ^ (-27 : ℤ))) = fin false 16268816 (-18) :=
  round_eq_cert false (by norm_num) (by norm_num) (by norm_num) (by norm_num)
    (by norm_num) (by norm_num [abs_lt])

/-- The correctly rounded quotient of the largest binary32 not above `4.096` by
`0.066f`. -/
theorem round_belowFullScale :
    F32.round false ((((8589934 : ℕ) : ℚ) * 2 ^ (-21 : ℤ))
        / (((8858370 : ℕ) : ℚ) * 2 ^ (-27 : ℤ))) = fin false 16268814 (-18) :=
  round_eq_cert false (by norm_num) (by norm_num) (by norm_num) (by norm_num)
    (by norm_num) (by norm_num [abs_lt])

theorem calculateCurrent_min :
    calculateCurrent (gainOneVolts (-32768)) = fin true 16268816 (-18) := by
  rw [gainOneVolts_min, calculateCurrent_fin (by simp [Valid])]
  exact round_eq_cert true (by norm_num) (by norm_num) (by norm_num) (by norm_num)
    (by norm_num) (by norm_num [abs_lt])

/-- The binary32 values of the computation at the voltages `0`, `1.0f`, `2.5f` and
`±6.6f`: `+0`, `15887515 / 1048576`, `9929697 / 262144` and `±100`. -/
theorem calculateCurrent_binary32_values :
    calculateCurrent (ofRat 0) = fin false 0 (-149)
    ∧ calculateCurrent (ofRat 1.0) = fin false 15887515 (-20)
    ∧ calculateCurrent (ofRat 2.5) = fin false 9929697 (-18)
    ∧ calculateCurrent (ofRat 6.6) = fin false 13107200 (-17)
    ∧ calculateCurrent (ofRat (-6.6)) = fin true 13107200 (-17)
    ∧ ofRat 100 = fin false 13107200 (-17) := by
  have h1 : ofRat 1.0 = fin false 8388608 (-23) := by
    rw [ofRat_of_pos (by norm_num)]
    exact round_eq_cert false (by norm_num) (by norm_num) (by norm_num) (by norm_num)
      (by norm_num) (by norm_num [abs_lt])
  have h2 : ofRat 2.5 = fin false 10485760 (-22) := by
    rw [ofRat_of_pos (by norm_num)]
    exact round_eq_cert false (by norm_num) (by norm_num) (by norm_num) (by norm_num)
      (by norm_num) (by norm_num [abs_lt])
  have h3 : ofRat 6.6 = fin false 13841203 (-21) := by
    rw [ofRat_of_pos (by norm_num)]
    exact round_eq_cert false (by norm_num) (by norm_num) (by norm_num) (by norm_num)
      (by norm_num) (by norm_num [abs_lt])
  have h4 : ofRat (-6.6) = fin true 13841203 (-21) := by
    rw [ofRat_of_neg (by norm_num)]
    exact round_eq_cert true (by norm_num) (by norm_num) (by norm_num) (by norm_num)
      (by norm_num) (by norm_num [abs_lt])
  refine ⟨?_, ?_, ?_, ?_, ?_, ?_⟩
  · rw [ofRat_zero, calculateCurrent_fin (by simp [Valid])]
    simp [F32.round]
  · rw [h1, calculateCurrent_fin (by simp [Valid])]
    exact round_eq_cert false (by norm_num) (by norm_num) (by norm_num) (by norm_num)
      (by norm_num) (by norm_num [abs_lt])
  · rw [h2, calculateCurrent_fin (by simp [Valid])]
    exact round_eq_cert false (by norm_num) (by norm_num) (by norm_num) (by norm_num)
      (by norm_num) (by norm_num [abs_lt])
  · rw [h3, calculateCurrent_fin (by simp [Valid])]
    exact round_eq_cert false (by norm_num) (by norm_num) (by norm_num) (by norm_num)
      (by norm_num) (by norm_num [abs_lt])
  · rw [h4, calculateCurrent_fin (by simp [Valid])]
    exact round_eq_cert true (by norm_num) (by norm_num) (by norm_num) (by norm_num)
      (by norm_num) (by norm_num [abs_lt])
  · rw [ofRat_of_pos (by norm_num)]
    exact round_eq_cert false (by norm_num) (by norm_num) (by norm_num) (by norm_num)
      (by norm_num) (by norm_num [abs_lt])

/-- A valid binary32 of magnitude at most `4.096` is at most `8589934 * 2^-21`, the
largest binary32 below `4.096`. -/
theorem le_belowFullScale {s : Bool} {m : ℕ} {e : ℤ} (hv : Valid (fin s m e))
    (h : (m : ℚ) * 2 ^ e ≤ 4.096) : (m : ℚ) * 2 ^ e ≤ ((8589934 : ℕ) : ℚ) * 2 ^ (-21 : ℤ) := by
  obtain ⟨h24, hlo, _, hnorm⟩ := hv
  have h24q : (m : ℚ) ≤ 2 ^ (24 : ℤ) := by
    have : (m : ℚ) ≤ ((2 ^ 24 : ℕ) : ℚ) := by exact_mod_cast le_of_lt h24
    norm_num at this ⊢
    exact this
  rcases lt_trichotomy e (-21) with hlt | heq | hgt
  · calc (m : ℚ) * 2 ^ e ≤ 2 ^ (24 : ℤ) * 2 ^ e :=
          mul_le_mul_of_nonneg_right h24q (le_of_lt (two_zpow_pos _))
      _ = 2 ^ (24 + e) := (two_zpow_add _ _).symm
      _ ≤ 2 ^ (2 : ℤ) := two_zpow_le (by omega)
      _ ≤ ((8589934 : ℕ) : ℚ) * 2 ^ (-21 : ℤ) := by norm_num
  · subst heq
    have hm : (m : ℚ) < 8589935 := by
      have h21 : (2 : ℚ) ^ (-21 : ℤ) = 1 / 2097152 := by norm_num
      rw [h21] at h
      have : (m : ℚ) ≤ 4.096 * 2097152 := by
        have := mul_le_mul_of_nonneg_right h (by norm_num : (0 : ℚ) ≤ 2097152)
        norm_num at this ⊢
        linarith
      norm_num at this
      linarith
    have hm' : m ≤ 8589934 := by
      have : m < 8589935 := by exact_mod_cast hm
      omega
    apply mul_le_mul_of_nonneg_right _ (le_of_lt (two_zpow_pos _))
    exact_mod_cast hm'
  · exfalso
    have h23 : 2 ^ 23 ≤ m := by
      rcases hnorm with h | h
      · exact h
      · omega
    have h23q : (2 : ℚ) ^ (23 : ℤ) ≤ m := by
      have : ((2 ^ 23 : ℕ) : ℚ) ≤ (m : ℚ) := by exact_mod_cast h23
      norm_num at this ⊢
      exact this
    have : (2 : ℚ) ^ (3 : ℤ) ≤ (m : ℚ) * 2 ^ e :=
      calc (2 : ℚ) ^ (3 : ℤ) ≤ 2 ^ (23 + e) := two_zpow_le (by omega)
        _ = 2 ^ (23 : ℤ) * 2 ^ e := two_zpow_add _ _
        _ ≤ (m : ℚ) * 2 ^ e := mul_le_mul_of_nonneg_right h23q (le_of_lt (two_zpow_pos _))
    norm_num at this h
    linarith

/-- The conversion of a 16-bit code to binary32 is finite, of magnitude at most
`32768`. -/
theorem ofInt_int16 (r : ℤ) (hlo : -32768 ≤ r) (hhi : r ≤ 32767) :
    ∃ s m e, ofInt r = fin s m e ∧ Valid (fin s m e)
      ∧ (m : ℚ) * 2 ^ e ≤ ((8388608 : ℕ) : ℚ) * 2 ^ (-8 : ℤ) := by
  have hq : |(r : ℚ)| ≤ ((8388608 : ℕ) : ℚ) * 2 ^ (-8 : ℤ) := by
    have h1 : (-32768 : ℚ) ≤ (r : ℚ) := by exact_mod_cast hlo
    have h2 : (r : ℚ) ≤ 32767 := by exact_mod_cast hhi
    rw [abs_le]
    norm_num
    constructor <;> linarith
  obtain ⟨m, e, h1, h2, h3⟩ :=
    round_le_of_le (decide ((r : ℚ) < 0)) (t := false) (abs_nonneg (r : ℚ))
      (by simp [Valid]) hq
  exact ⟨_, m, e, h1, h2, h3⟩

/-- The `GAIN_ONE` conversion of a 16-bit code is finite, of magnitude at most the
binary32 full scale `4.096f = 8589935 * 2^-21`. -/
theorem gainOneVolts_int16 (r : ℤ) (hlo : -32768 ≤ r) (hhi : r ≤ 32767) :
    ∃ s m e, gainOneVolts r = fin s m e ∧ Valid (fin s m e)
      ∧ (m : ℚ) * 2 ^ e ≤ ((8589935 : ℕ) : ℚ) * 2 ^ (-21 : ℤ) := by
  obtain ⟨s, a, b, h1, _, h3⟩ := ofInt_int16 r hlo hhi
  unfold gainOneVolts
  rw [gainOne_scale, h1, mul_fin_fin, Bool.xor_false]
  have hab : (0 : ℚ) ≤ (a : ℚ) * 2 ^ b :=
    mul_nonneg (Nat.cast_nonneg a) (le_of_lt (two_zpow_pos b))
  have hc : (0 : ℚ) ≤ ((8589935 : ℕ) : ℚ) * 2 ^ (-36 : ℤ) := by norm_num
  have hle : (a : ℚ) * 2 ^ b * (((8589935 : ℕ) : ℚ) * 2 ^ (-36 : ℤ))
      ≤ ((8589935 : ℕ) : ℚ) * 2 ^ (-21 : ℤ) := by
    have := mul_le_mul_of_nonneg_right h3 hc
    norm_num at this ⊢
    linarith
  obtain ⟨m, e, k1, k2, k3⟩ :=
    round_le_of_le s (t := false) (mul_nonneg hab hc) (by simp [Valid]) hle
  exact ⟨s, m, e, k1, k2, k3⟩

/-- The exact scale `r * 4.096 / 32768` of a 16-bit code, rounded once to binary32, is
finite, of magnitude at most the binary32 full scale. -/
theorem ofRat_scale_int16 (r : ℤ) (hlo : -32768 ≤ r) (hhi : r ≤ 32767) :
    ∃ s m e, ofRat ((r : ℚ) * 4.096 / 32768) = fin s m e ∧ Valid (fin s m e)
      ∧ (m : ℚ) * 2 ^ e ≤ ((8589935 : ℕ) : ℚ) * 2 ^ (-21 : ℤ) := by
  have hq : |(r : ℚ) * 4.096 / 32768| ≤ ((8589935 : ℕ) : ℚ) * 2 ^ (-21 : ℤ) := by
    have h1 : (-32768 : ℚ) ≤ (r : ℚ) := by exact_mod_cast hlo
    have h2 : (r : ℚ) ≤ 32767 := by exact_mod_cast hhi
    rw [abs_le]
    norm_num
    constructor <;> linarith
  obtain ⟨m, e, h1, h2, h3⟩ :=
    round_le_of_le (decide ((r : ℚ) * 4.096 / 32768 < 0)) (t := false)
      (abs_nonneg _) (by simp [Valid]) hq
  exact ⟨_, m, e, h1, h2, h3⟩

end WCS1700Current.Binary32

/-! ## The claims -/

namespace WCS1700Current

variable {σ γ : Type}

/-- C2: `begin()` returns `false` exactly when the driver's `begin()` (run after the bus
start-up) reports failure and `true` exactly when it reports success; it is a total
function, and among the calls it issues there is exactly one driver `begin()`. -/
theorem begin_false_iff_driver_fails (hw : Collaborators σ γ) (self : WCS1700Current σ γ) :
    ((begin hw self).1 = false ↔ (hw.ads_begin (hw.Wire_begin self.ads)).1 = false)
    ∧ ((begin hw self).1 = true ↔ (hw.ads_begin (hw.Wire_begin self.ads)).1 = true)
    ∧ (issued self (begin hw self).2).countP Call.isAdsBegin = 1
    ∧ (begin hw self).2.calls = self.calls ++ issued self (begin hw self).2 := by
  refine ⟨by rw [begin_fst], by rw [begin_fst], ?_, ?_⟩
  · rw [begin_issued]
    cases (hw.ads_begin (hw.Wire_begin self.ads)).1 <;> rfl
  · unfold issued begin
    cases h : (hw.ads_begin (hw.Wire_begin self.ads)).1 <;> simp [h]

/-- C3: for every channel value `c` of type `uint8_t` given to the constructor and every
driver, `getAnalogValue()` returns the value of the driver's single-ended read for
channel `c`, issuing exactly that one call; in general it reads the channel stored in
the object. -/
theorem getAnalogValue_passes_through (hw : Collaborators σ γ) (ads0 : σ) (c : Nat)
    (hc : c < 256) :
    (getAnalogValue hw (construct ads0 c)).1 = (hw.ads_readADC_SingleEnded c ads0).1
    ∧ issued (construct ads0 c) (getAnalogValue hw (construct ads0 c)).2
        = [Call.ads_readADC_SingleEnded c]
    ∧ (getAnalogValue hw (construct ads0 c)).2.channel = c
    ∧ ∀ self : WCS1700Current σ γ,
        (getAnalogValue hw self).1 = (hw.ads_readADC_SingleEnded self.channel self.ads).1 := by
  have hmod : c % 256 = c := Nat.mod_eq_of_lt hc
  refine ⟨?_, ?_, ?_, fun _ => rfl⟩
  · simp [getAnalogValue, construct, hmod]
  · simp [getAnalogValue, construct, issued, hmod]
  · simp [getAnalogValue, construct, hmod]

/-- Witness of C3: a driver fixed to return `12345` makes `getAnalogValue()` return
`12345`, here on channel 255. -/
theorem getAnalogValue_passes_through_witness :
    (255 : Nat) < 256
    ∧ (getAnalogValue (mockDriver 12345) (construct ⟨true, 0, 0⟩ 255)).1 = 12345 :=
  ⟨by decide,
    (getAnalogValue_passes_through (mockDriver 12345) ⟨true, 0, 0⟩ 255 (by decide)).1.trans rfl⟩

/-- C4: a voltage equal to the zero-current offset gives a current of exactly `0`, the
sensitivity and the calibration factor being nonzero; the shipped offset is `0`, and a
driver voltage of `0` makes `readCurrent()` return `0`. -/
theorem calculateCurrent_at_offset :
    calculateCurrent ZERO_CURRENT_VOLTAGE = 0
    ∧ SENSITIVITY ≠ 0 ∧ CALIBRATION_FACTOR ≠ 0 ∧ ZERO_CURRENT_VOLTAGE = 0
    ∧ ∀ (σ γ : Type) (hw : Collaborators σ γ) (self : WCS1700Current σ γ),
        (hw.ads_computeVolts (hw.ads_readADC_SingleEnded self.channel self.ads).1
            (hw.ads_readADC_SingleEnded self.channel self.ads).2).1 = 0 →
        (readCurrent hw self).1 = 0 := by
  refine ⟨?_, ?_, ?_, rfl, ?_⟩
  · simp [calculateCurrent]
  · norm_num [SENSITIVITY]
  · norm_num [CALIBRATION_FACTOR]
  · intro σ γ hw self h
    rw [readCurrent_fst, h, calculateCurrent_shipped]
    norm_num

/-- Witness of C4: on the test driver fixed to raw code `0` (that is `0` V),
`readCurrent()` returns `0`. -/
theorem calculateCurrent_at_offset_witness :
    (readCurrent (mockDriver 0) (mockSensor true 1)).1 = 0 :=
  calculateCurrent_at_offset.2.2.2.2 MockADS Nat (mockDriver 0) (mockSensor true 1)
    (by norm_num [mockDriver])

/-- C7: on a driver whose single-ended read yields the fixed code `r` (whatever the
channel and the driver state) and whose conversion to volts is the fixed function `cv`,
the `n`-th of `n ≥ 1` consecutive `readCurrent()` calls returns the same value as the
first call, namely `calculateCurrent (cv r)`; the reads change neither the channel nor
the calibration constant. -/
theorem readCurrent_repeatable (hw : Collaborators σ γ) (self : WCS1700Current σ γ)
    (r : Int) (cv : Int → ℚ)
    (hread : ∀ c s, (hw.ads_readADC_SingleEnded c s).1 = r)
    (hvolts : ∀ a s, (hw.ads_computeVolts a s).1 = cv a)
    (n : Nat) (hn : 1 ≤ n) :
    nthReadCurrent hw self n = nthReadCurrent hw self 1
    ∧ nthReadCurrent hw self n = calculateCurrent (cv r)
    ∧ (afterReads hw n self).channel = self.channel
    ∧ getCalibrationFactor (afterReads hw n self) = getCalibrationFactor self := by
  have key : ∀ obj : WCS1700Current σ γ, (readCurrent hw obj).1 = calculateCurrent (cv r) := by
    intro obj
    rw [readCurrent_fst, hvolts, hread]
  obtain ⟨k, rfl⟩ : ∃ k, n = k + 1 := ⟨n - 1, by omega⟩
  refine ⟨?_, ?_, afterReads_channel hw (k + 1) self, rfl⟩
  · unfold nthReadCurrent
    rw [key, key]
  · unfold nthReadCurrent
    rw [key]

/-- Witness of C7: on the test driver fixed to raw code `12345`, the third consecutive
`readCurrent()` returns what the first returned. -/
theorem readCurrent_repeatable_witness :
    (1 ≤ 3)
    ∧ nthReadCurrent (mockDriver 12345) (mockSensor true 1) 3
        = nthReadCurrent (mockDriver 12345) (mockSensor true 1) 1 :=
  ⟨by decide,
    (readCurrent_repeatable (mockDriver 12345) (mockSensor true 1) 12345
      (fun a => (a : ℚ) * 4.096 / 32768) (fun _ _ => rfl) (fun _ _ => rfl) 3 (by decide)).1⟩

/-- C8: `getCalibrationFactor()` returns exactly the factor `calculateCurrent` multiplies
by: `calculateCurrent v = ((v - ZERO_CURRENT_VOLTAGE) / SENSITIVITY) *
getCalibrationFactor()`, and the accessor returns `1.0` for every object: before
`begin()`, after `begin()`, and after any number of reads. -/
theorem getCalibrationFactor_is_the_factor (hw : Collaborators σ γ)
    (self : WCS1700Current σ γ) (v : ℚ) (n : Nat) :
    calculateCurrent v
        = ((v - ZERO_CURRENT_VOLTAGE) / SENSITIVITY) * getCalibrationFactor self
    ∧ getCalibrationFactor self = CALIBRATION_FACTOR
    ∧ getCalibrationFactor self = 1.0
    ∧ getCalibrationFactor (begin hw self).2 = 1.0
    ∧ getCalibrationFactor (afterReads hw n self) = 1.0
    ∧ getCalibrationFactor (afterReads hw n (begin hw self).2) = 1.0 := by
  have h : ∀ obj : WCS1700Current σ γ, getCalibrationFactor obj = 1.0 := by
    intro obj
    norm_num [getCalibrationFactor, CALIBRATION_FACTOR]
  exact ⟨rfl, rfl, h _, h _, h _, h _⟩

/-- C9: `begin()` configures the gain exactly when the driver handshake succeeds.  For a
driver whose gain setting `getGain` is what `setGain` last stored: when `begin()`
returns `true` the gain setting afterwards is `GAIN_ONE`, whatever it was before, and
the calls issued are bus start-up, driver `begin`, `setGain(GAIN_ONE)` in this order;
when `begin()` returns `false` the calls issued are bus start-up and driver `begin`
only, with no `setGain`, and the driver is left as its own `begin` left it. -/
theorem begin_sets_gain_iff_success (hw : Collaborators σ γ) (self : WCS1700Current σ γ)
    (getGain : σ → γ) (hstore : ∀ g s, getGain (hw.ads_setGain g s) = g) :
    ((begin hw self).1 = true →
        getGain (begin hw self).2.ads = hw.GAIN_ONE
        ∧ issued self (begin hw self).2
            = [Call.Wire_begin, Call.ads_begin, Call.ads_setGain hw.GAIN_ONE])
    ∧ ((begin hw self).1 = false →
        issued self (begin hw self).2 = [Call.Wire_begin, Call.ads_begin]
        ∧ (issued self (begin hw self).2).countP Call.isSetGain = 0
        ∧ (begin hw self).2.ads = (hw.ads_begin (hw.Wire_begin self.ads)).2)
    ∧ ((issued self (begin hw self).2).countP Call.isSetGain = 1 ↔ (begin hw self).1 = true)
    ∧ (issued self (begin hw self).2).take 2 = [Call.Wire_begin, Call.ads_begin] := by
  rw [begin_fst, begin_issued, begin_ads]
  cases h : (hw.ads_begin (hw.Wire_begin self.ads)).1
  · simp [Call.isSetGain]
  · simp [Call.isSetGain, hstore]

/-- Witness of C9: on the test driver, whose gain setting is the stored code, `begin()` on
an acknowledging chip returns `true` and leaves the gain code `0x0200` where it was `0`;
on a silent chip it returns `false` and issues only the bus start-up and the driver
`begin`. -/
theorem begin_sets_gain_iff_success_witness :
    (∀ g s, MockADS.gain ((mockDriver 0).ads_setGain g s) = g)
    ∧ (begin (mockDriver 0) (mockSensor true 1)).1 = true
    ∧ (mockSensor true 1).ads.gain = 0
    ∧ (begin (mockDriver 0) (mockSensor true 1)).2.ads.gain = 0x0200
    ∧ (begin (mockDriver 0) (mockSensor false 1)).1 = false
    ∧ issued (mockSensor false 1) (begin (mockDriver 0) (mockSensor false 1)).2
        = [Call.Wire_begin, Call.ads_begin] :=
  ⟨fun _ _ => rfl, rfl, rfl,
    ((begin_sets_gain_iff_success (mockDriver 0) (mockSensor true 1) MockADS.gain
      (fun _ _ => rfl)).1 rfl).1,
    rfl,
    ((begin_sets_gain_iff_success (mockDriver 0) (mockSensor false 1) MockADS.gain
      (fun _ _ => rfl)).2.1 rfl).1⟩

end WCS1700Current

/-! ## Claims on the values returned, in binary32 -/

namespace WCS1700Current.Binary32

open F32

variable {σ γ : Type}

/-- C1: in binary32, with `v` the driver's `computeVolts` of the code its single-ended
read returned for the object's channel, `readCurrent()` returns exactly
`(v - ZERO_CURRENT_VOLTAGE) / SENSITIVITY * CALIBRATION_FACTOR`.  With the shipped
constants (sensitivity `0.066f = 8858370 * 2^-27`, offset `+0`, factor `1`) this is, for
every binary32 `v` (`v.Valid`: finite, infinite or NaN), the single division
`v / 0.066f`; for a finite `v` that is the quotient of `v` by `4429185 / 67108864`,
rounded once.  Any other object on any other collaborators whose sampled voltage is the
same `v` returns the same value.  The voltage `1.65f` gives exactly `25.0`. -/
theorem readCurrent_binary32_formula (hw : CollaboratorsF32 σ γ)
    (self : WCS1700Current σ γ) (v : F32)
    (hv : v = (hw.ads_computeVolts (hw.ads_readADC_SingleEnded self.channel self.ads).1
        (hw.ads_readADC_SingleEnded self.channel self.ads).2).1) :
    (readCurrent hw self).1
        = F32.mul (F32.div (F32.sub v ZERO_CURRENT_VOLTAGE) SENSITIVITY) CALIBRATION_FACTOR
    ∧ (v.Valid → (readCurrent hw self).1 = F32.div v SENSITIVITY)
    ∧ (∀ (s : Bool) (m : ℕ) (e : ℤ), v = fin s m e → v.Valid →
        (readCurrent hw self).1 = F32.round s (((m : ℚ) * 2 ^ e) / (4429185 / 67108864)))
    ∧ (SENSITIVITY = fin false 8858370 (-27) ∧ SENSITIVITY.toRat = 4429185 / 67108864
        ∧ (∀ d : ℚ, |d - 0.066| ≤ 2 ^ (-57 : ℤ) → ofRat d = SENSITIVITY)
        ∧ ZERO_CURRENT_VOLTAGE = fin false 0 (-149)
        ∧ CALIBRATION_FACTOR = fin false 8388608 (-23) ∧ CALIBRATION_FACTOR.toRat = 1)
    ∧ (∀ (hw2 : CollaboratorsF32 σ γ) (self2 : WCS1700Current σ γ),
        (hw2.ads_computeVolts (hw2.ads_readADC_SingleEnded self2.channel self2.ads).1
            (hw2.ads_readADC_SingleEnded self2.channel self2.ads).2).1 = v →
        (readCurrent hw2 self2).1 = (readCurrent hw self).1)
    ∧ (v = ofRat 1.65 →
        (readCurrent hw self).1 = ofRat 25.0 ∧ (readCurrent hw self).1.toRat = 25) := by
  have hrc : (readCurrent hw self).1 = calculateCurrent v := by
    rw [readCurrent_binary32_fst, ← hv]
  refine ⟨by rw [hrc]; rfl, ?_, ?_, ?_, ?_, ?_⟩
  · intro hval
    rw [hrc, calculateCurrent_eq_div hval]
  · intro s m e hs hval
    rw [hrc, hs, calculateCurrent_fin (hs ▸ hval)]
    congr 1
    norm_num
  · refine ⟨SENSITIVITY_eq, ?_, ofRat_near_sensitivity, ZERO_CURRENT_VOLTAGE_eq,
      CALIBRATION_FACTOR_eq, ?_⟩
    · rw [SENSITIVITY_eq]
      norm_num [toRat]
    · rw [CALIBRATION_FACTOR_eq]
      norm_num [toRat]
  · intro hw2 self2 h
    rw [hrc, readCurrent_binary32_fst, h]
  · intro h
    rw [hrc, h, ofRat_1_65, calculateCurrent_1_65, ofRat_25]
    refine ⟨rfl, ?_⟩
    norm_num [toRat]

/-- Witness of C1: on a test driver that reports `1.65f`, `readCurrent()` returns
`13107200 * 2^-19 = 25`; on the test driver with the `GAIN_ONE` conversion and raw code
`13200` (volts `13841204 * 2^-23`, just above `1.65f`) it returns
`13107201 * 2^-19 = 13107201 / 524288`. -/
theorem readCurrent_binary32_formula_witness :
    (readCurrent (mockDriverF32 13200 (fun _ => ofRat 1.65)) (mockSensor true 1)).1
        = fin false 13107200 (-19)
    ∧ (readCurrent (mockDriverF32 13200 (fun _ => ofRat 1.65)) (mockSensor true 1)).1.toRat = 25
    ∧ (readCurrent (mockDriverF32 13200 gainOneVolts) (mockSensor true 1)).1
        = fin false 13107201 (-19) :=
  ⟨((readCurrent_binary32_formula (mockDriverF32 13200 (fun _ => ofRat 1.65))
      (mockSensor true 1) (ofRat 1.65) rfl).2.2.2.2.2 rfl).1.trans ofRat_25,
    ((readCurrent_binary32_formula (mockDriverF32 13200 (fun _ => ofRat 1.65))
      (mockSensor true 1) (ofRat 1.65) rfl).2.2.2.2.2 rfl).2,
    ((readCurrent_binary32_formula (mockDriverF32 13200 gainOneVolts)
      (mockSensor true 1) (gainOneVolts 13200) rfl).1.trans
        (calculateCurrent_13200))⟩

/-- C10: in binary32, inside the `±4.096` V input range the documented maximum is not
reached.  For every finite voltage `v` with `|v| ≤ 4.096` the current is finite, of
magnitude at most `4.096 / 0.066` (between `62.06` and `62.07`), so strictly below
`MAX_CURRENT = 75`.  For every 16-bit raw code converted with the `GAIN_ONE` scale,
evaluated in binary32 as `r * (4.096f / 32768)` or as `r * 4.096 / 32768` rounded once,
the value `readCurrent()` returns is finite, of magnitude at most `1016801 / 16384`, so
strictly below `75`; the code `-32768` reaches that magnitude. -/
theorem current_binary32_in_range_below_max :
    (∀ v : F32, v.Valid → v.isFinite = true → |v.toRat| ≤ 4.096 →
        (calculateCurrent v).isFinite = true
        ∧ |(calculateCurrent v).toRat| ≤ 4.096 / 0.066
        ∧ |(calculateCurrent v).toRat| < MAX_CURRENT.toRat)
    ∧ ((62.06 : ℚ) < 4.096 / 0.066 ∧ (4.096 : ℚ) / 0.066 < 62.07)
    ∧ MAX_CURRENT.toRat = 75
    ∧ (∀ (σ γ : Type) (hw : CollaboratorsF32 σ γ) (self : WCS1700Current σ γ),
        -32768 ≤ (hw.ads_readADC_SingleEnded self.channel self.ads).1 →
        (hw.ads_readADC_SingleEnded self.channel self.ads).1 ≤ 32767 →
        ((hw.ads_computeVolts (hw.ads_readADC_SingleEnded self.channel self.ads).1
            (hw.ads_readADC_SingleEnded self.channel self.ads).2).1
          = gainOneVolts (hw.ads_readADC_SingleEnded self.channel self.ads).1
         ∨ (hw.ads_computeVolts (hw.ads_readADC_SingleEnded self.channel self.ads).1
            (hw.ads_readADC_SingleEnded self.channel self.ads).2).1
          = ofRat (((hw.ads_readADC_SingleEnded self.channel self.ads).1 : ℚ)
              * 4.096 / 32768)) →
        (readCurrent hw self).1.isFinite = true
        ∧ |(readCurrent hw self).1.toRat| ≤ 1016801 / 16384
        ∧ |(readCurrent hw self).1.toRat| < 75)
    ∧ calculateCurrent (gainOneVolts (-32768)) = fin true 16268816 (-18)
    ∧ |(calculateCurrent (gainOneVolts (-32768))).toRat| = 1016801 / 16384 := by
  have hmax : MAX_CURRENT.toRat = 75 := by
    rw [MAX_CURRENT_eq]
    norm_num [toRat]
  refine ⟨?_, by norm_num, hmax, ?_, calculateCurrent_min, ?_⟩
  · intro v hval hfin hle
    cases v with
    | nan => simp [isFinite] at hfin
    | inf s => simp [isFinite] at hfin
    | fin s m e =>
      rw [abs_toRat_fin] at hle
      obtain ⟨m', e', hc, hb⟩ :=
        calculateCurrent_le hval (le_belowFullScale hval hle) round_belowFullScale
      rw [hc, abs_toRat_fin, hmax]
      have hb' : (m' : ℚ) * 2 ^ e' ≤ 8134407 / 131072 := by
        have h : ((16268814 : ℕ) : ℚ) * 2 ^ (-18 : ℤ) = 8134407 / 131072 := by norm_num
        rw [← h]
        exact hb
      refine ⟨rfl, ?_, ?_⟩
      · refine le_trans hb' ?_
        norm_num
      · refine lt_of_le_of_lt hb' ?_
        norm_num
  · intro σ γ hw self hlo hhi hscale
    have hvolt : ∃ s m e,
        (hw.ads_computeVolts (hw.ads_readADC_SingleEnded self.channel self.ads).1
            (hw.ads_readADC_SingleEnded self.channel self.ads).2).1 = fin s m e
        ∧ Valid (fin s m e)
        ∧ (m : ℚ) * 2 ^ e ≤ ((8589935 : ℕ) : ℚ) * 2 ^ (-21 : ℤ) := by
      rcases hscale with h | h
      · rw [h]
        exact gainOneVolts_int16 _ hlo hhi
      · rw [h]
        exact ofRat_scale_int16 _ hlo hhi
    obtain ⟨s, m, e, hv, hval, hle⟩ := hvolt
    obtain ⟨m', e', hc, hb⟩ := calculateCurrent_le hval hle round_fullScale
    rw [readCurrent_binary32_fst, hv, hc, abs_toRat_fin]
    have hb' : (m' : ℚ) * 2 ^ e' ≤ 1016801 / 16384 := by
      have h : ((16268816 : ℕ) : ℚ) * 2 ^ (-18 : ℤ) = 1016801 / 16384 := by norm_num
      rw [← h]
      exact hb
    refine ⟨rfl, hb', ?_⟩
    refine lt_of_le_of_lt hb' ?_
    norm_num
  · rw [calculateCurrent_min, abs_toRat_fin]
    norm_num

/-- Witness of C10: the largest binary32 not above `4.096` gives a current below
`MAX_CURRENT`, and on the test driver with the `GAIN_ONE` conversion the most negative
code `-32768` gives a value of `readCurrent()` of magnitude below `75`. -/
theorem current_binary32_in_range_below_max_witness :
    |(fin false 8589934 (-21)).toRat| ≤ 4.096
    ∧ |(calculateCurrent (fin false 8589934 (-21))).toRat| < MAX_CURRENT.toRat
    ∧ |(readCurrent (mockDriverF32 (-32768) gainOneVolts) (mockSensor true 1)).1.toRat| < 75 :=
  ⟨by rw [abs_toRat_fin]; norm_num,
    (current_binary32_in_range_below_max.1 (fin false 8589934 (-21)) (by simp [Valid]) rfl
      (by rw [abs_toRat_fin]; norm_num)).2.2,
    (current_binary32_in_range_below_max.2.2.2.1 MockADS Nat
      (mockDriverF32 (-32768) gainOneVolts) (mockSensor true 1) (by decide) (by decide)
      (Or.inl rfl)).2.2⟩

end WCS1700Current.Binary32
